import Mathlib

/-!
Shallow embedding of the `sliceutils` package (sliceut.go) and proofs of the
frozen claims about it.  A Go slice's contents are modelled as a Lean `List`;
Go `int` parameters are modelled as `Int`; a Go `map[T]struct{}` used as a
seen-set is modelled as the list of keys inserted so far, with membership by
`∈`.  For the one claim about aliasing of backing storage, slices are
additionally modelled at the memory level as windows (array id, offset,
length) into a store.
-/

set_option maxHeartbeats 1000000

namespace SliceUtils

universe u

variable {α : Type u}

/-- `Take(slice, n)` (sliceut.go 429-441): first `n` elements; `n ≤ 0` gives
the empty slice, `n ≥ len` gives a copy of the whole slice. -/
def Take (slice : List α) (n : Int) : List α :=
  if n ≤ 0 then []
  else if n ≥ (slice.length : Int) then slice
  else slice.take n.toNat

/-- `Drop(slice, n)` (sliceut.go 475-487): all but the first `n` elements;
`n ≤ 0` gives a copy of the whole slice, `n ≥ len` gives the empty slice. -/
def Drop (slice : List α) (n : Int) : List α :=
  if n ≤ 0 then slice
  else if n ≥ (slice.length : Int) then []
  else slice.drop n.toNat

/-- `Concat(slices...)` (sliceut.go 387-404): zero arguments give the empty
slice, otherwise all argument slices are appended in order. -/
def Concat (slices : List (List α)) : List α :=
  if slices.length = 0 then []
  else slices.foldl (fun acc s => acc ++ s) []

/-- The index loop shared by `TakeWhile`/`DropWhile` (sliceut.go 466, 511):
`for i = 0; i < len(slice) && predicate(slice[i]); i++`, i.e. the number of
leading elements satisfying the predicate before the first failure. -/
def scanIdx (p : α → Bool) : List α → Nat
  | [] => 0
  | v :: rest => if p v then scanIdx p rest + 1 else 0

/-- `TakeWhile(slice, predicate)` (sliceut.go 460-472). -/
def TakeWhile (slice : List α) (p : α → Bool) : List α :=
  if slice.length = 0 then []
  else slice.take (scanIdx p slice)

/-- `DropWhile(slice, predicate)` (sliceut.go 505-517). -/
def DropWhile (slice : List α) (p : α → Bool) : List α :=
  if slice.length = 0 then []
  else slice.drop (scanIdx p slice)

/-- `result[i], result[j] = result[j], result[i]`: the swap statement of the
`Shuffle` loop; both indices are always in range when the loop executes. -/
def listSwap (l : List α) (i j : Nat) : List α :=
  match l[i]?, l[j]? with
  | some a, some b => (l.set i b).set j a
  | _, _ => l

/-- The `Shuffle` fallback loop (sliceut.go 272-276):
`for i := len(result)-1; i > 0; i--` swapping index `i` with
`j := i % (i + 1)`. -/
def shuffleLoop (l : List α) : Nat → List α
  | 0 => l
  | i + 1 => shuffleLoop (listSwap l (i + 1) ((i + 1) % (i + 1 + 1))) i

/-- `Shuffle(slice)` (sliceut.go 244-278): copies the slice, then runs the
fallback swap loop. -/
def Shuffle (slice : List α) : List α :=
  if slice.length ≤ 1 then slice
  else shuffleLoop slice (slice.length - 1)

/-- The loop shared by `Uniq` (sliceut.go 176-181) and `Union` (349-361):
walks the list, threading the `seen` map and appending each unseen value.
Returns the final seen-set and the emitted values. -/
def seenScan [DecidableEq α] (seen : List α) : List α → List α × List α
  | [] => (seen, [])
  | v :: rest =>
    if v ∈ seen then seenScan seen rest
    else
      let p := seenScan (v :: seen) rest
      (p.1, v :: p.2)

/-- `Uniq(slice)` (sliceut.go 166-183): fast paths for length 0 and 1, then
the seen-set loop. -/
def Uniq [DecidableEq α] (slice : List α) : List α :=
  match slice with
  | [] => []
  | [a] => [a]
  | _ => (seenScan [] slice).2

/-- `Union(slice1, slice2)` (sliceut.go 338-364): `Uniq` of the other slice
when one is empty, otherwise one seen-set threaded through both slices in
order. -/
def Union [DecidableEq α] (slice1 slice2 : List α) : List α :=
  if slice1.length = 0 then Uniq slice2
  else if slice2.length = 0 then Uniq slice1
  else
    let p1 := seenScan [] slice1
    let p2 := seenScan p1.1 slice2
    p1.2 ++ p2.2

/-- The `Difference` filter loop (sliceut.go 296-301): appends each element of
the walked list that is not in the set built from `slice2`. -/
def diffLoop [DecidableEq α] (set : List α) : List α → List α
  | [] => []
  | v :: rest => if v ∈ set then diffLoop set rest else v :: diffLoop set rest

/-- `Difference(slice1, slice2)` (sliceut.go 281-303). -/
def Difference [DecidableEq α] (slice1 slice2 : List α) : List α :=
  if slice1.length = 0 then []
  else if slice2.length = 0 then slice1
  else diffLoop slice2 slice1

/-- The `Intersection` loop (sliceut.go 324-333): walks `larger`, emitting
values that are in `set` (built from `smaller`) and not yet in `seen`. -/
def interLoop [DecidableEq α] (set seen : List α) : List α → List α
  | [] => []
  | v :: rest =>
    if v ∈ set then
      if v ∈ seen then interLoop set seen rest
      else v :: interLoop set (v :: seen) rest
    else interLoop set seen rest

/-- `Intersection(slice1, slice2)` (sliceut.go 306-335): empty if either is
empty, else the smaller slice becomes the set and the larger is walked. -/
def Intersection [DecidableEq α] (slice1 slice2 : List α) : List α :=
  if slice1.length = 0 ∨ slice2.length = 0 then []
  else if slice1.length ≤ slice2.length then interLoop slice1 [] slice2
  else interLoop slice2 [] slice1

/-- The `Chunk` loop (sliceut.go 217-223) at the value level, with chunk size
`sp + 1` (the caller's positive `size`, offset by one so the recursion is on a
strictly shrinking list): each step takes `slice[i:end]` and advances by the
size. -/
def chunkAux : List α → Nat → List (List α)
  | [], _ => []
  | v :: rest, sp =>
    (v :: rest).take (sp + 1) :: chunkAux ((v :: rest).drop (sp + 1)) sp
termination_by l _ => l.length
decreasing_by
  simp only [List.drop_succ_cons, List.length_drop, List.length_cons]
  omega

/-- `Chunk(slice, size)` (sliceut.go 209-226), element contents of the
returned chunks: empty result for `size ≤ 0` or empty input. -/
def Chunk (slice : List α) (size : Int) : List (List α) :=
  if size ≤ 0 ∨ slice.length = 0 then []
  else chunkAux slice (size.toNat - 1)

/-- The `Fill` write loop (sliceut.go 554-556):
`for i := start; i < end; i++ { result[i] = value }`. -/
def fillLoop (l : List α) (value : α) (i e : Nat) : List α :=
  if i < e then fillLoop (l.set i value) value (i + 1) e else l
termination_by e - i

/-- `Fill(slice, value, start, end)` (sliceut.go 540-558): copies the slice,
clamps `start` below by 0 and `end` above by the length, returns the copy
unchanged when the range is empty or starts past the end, else runs the write
loop. -/
def Fill (slice : List α) (value : α) (start stop : Int) : List α :=
  let start1 := if start < 0 then 0 else start
  let end1 := if stop > (slice.length : Int) then (slice.length : Int) else stop
  if start1 ≥ end1 ∨ start1 ≥ (slice.length : Int) then slice
  else fillLoop slice value start1.toNat end1.toNat

/-- Length of a Go slice value that may be `nil`: `nil` has length 0. -/
def glen : Option (List α) → Nat
  | none => 0
  | some l => l.length

/-- Element contents of a Go slice value that may be `nil`. -/
def gelems : Option (List α) → List α
  | none => []
  | some l => l

/-- The element loop of `Equals` (sliceut.go 146-150); it only runs once the
lengths are known equal. -/
def eqLoop [DecidableEq α] : List α → List α → Bool
  | v :: r1, w :: r2 => if v ≠ w then false else eqLoop r1 r2
  | _, _ => true

/-- `Equals(slice1, slice2)` (sliceut.go 133-154), over Go slices that may be
`nil` (`none`) or non-nil (`some contents`): length check, then the
`(slice1 == nil) != (slice2 == nil)` check, then the element loop. -/
def Equals [DecidableEq α] (slice1 slice2 : Option (List α)) : Bool :=
  if glen slice1 ≠ glen slice2 then false
  else if slice1.isNone ≠ slice2.isNone then false
  else eqLoop (gelems slice1) (gelems slice2)

/-- A Go slice header at the memory level: an identifier for the backing
array plus the window's offset and length.  Subslicing (`slice[i:end]`) keeps
the array identifier and shifts the window, which is how Go shares backing
storage. -/
structure GoSlice where
  arrId : Nat
  off : Nat
  len : Nat
deriving DecidableEq, Repr

/-- A store maps each backing-array identifier to its contents. -/
abbrev Store (β : Type u) := Nat → List β

/-- The elements a slice header views in a store. -/
def readSlice (σ : Store α) (s : GoSlice) : List α :=
  ((σ s.arrId).drop s.off).take s.len

/-- `s[i] = v`: writing element `i` through a slice header writes the backing
array at position `off + i`. -/
def writeSlice (σ : Store α) (s : GoSlice) (i : Nat) (v : α) : Store α :=
  fun a => if a = s.arrId then (σ s.arrId).set (s.off + i) v else σ a

/-- The `Chunk` loop (sliceut.go 217-223) at the memory level, with chunk size
`sp + 1` and `rem` elements remaining: each appended chunk is the subslice
`slice[i:end]`, i.e. the same backing array with the window advanced. -/
def chunkSlicesAux (arrId off sp : Nat) : Nat → List GoSlice
  | 0 => []
  | rem + 1 =>
    ⟨arrId, off, min (sp + 1) (rem + 1)⟩ ::
      chunkSlicesAux arrId (off + (sp + 1)) sp (rem + 1 - (sp + 1))
termination_by rem => rem
decreasing_by omega

/-- `Chunk(slice, size)` (sliceut.go 209-226) at the memory level: the slice
headers of the returned chunks. -/
def chunkSlices (s : GoSlice) (size : Int) : List GoSlice :=
  if size ≤ 0 ∨ s.len = 0 then []
  else chunkSlicesAux s.arrId s.off (size.toNat - 1) s.len

theorem set_getElem?_self : ∀ (l : List α) (i : Nat) (a : α),
    l[i]? = some a → l.set i a = l
  | [], i, a, h => by simp at h
  | x :: xs, 0, a, h => by
    simp at h
    simp [List.set, h]
  | x :: xs, i + 1, a, h => by
    simp at h
    simp [List.set, set_getElem?_self xs i a h]

theorem listSwap_self (l : List α) (i : Nat) : listSwap l i i = l := by
  cases h : l[i]? with
  | none => simp [listSwap, h]
  | some a => simp [listSwap, h, List.set_set, set_getElem?_self l i a h]

theorem shuffleLoop_id : ∀ (n : Nat) (l : List α), shuffleLoop l n = l
  | 0, l => rfl
  | n + 1, l => by
    have hj : (n + 1) % (n + 1 + 1) = n + 1 := Nat.mod_eq_of_lt (by omega)
    rw [shuffleLoop, hj, listSwap_self]
    exact shuffleLoop_id n l

/-- Claim C2: `Shuffle(s)` returns a slice whose elements equal those of `s`
in the same order — the fallback swap index `j = i % (i + 1)` always equals
`i`, so every swap is a self-swap and the produced permutation is the
identity — and `Shuffle` is deterministic: equal inputs give equal outputs. -/
theorem shuffle_identity (s : List α) :
    Shuffle s = s ∧ ∀ t : List α, s = t → Shuffle s = Shuffle t := by
  constructor
  · unfold Shuffle
    split
    · rfl
    · exact shuffleLoop_id _ s
  · intro t h
    rw [h]

theorem foldl_append_join : ∀ (ls : List (List α)) (acc : List α),
    List.foldl (fun acc s => acc ++ s) acc ls = acc ++ ls.flatten
  | [], acc => by simp
  | l :: ls, acc => by
    simp [List.foldl, foldl_append_join ls (acc ++ l), List.append_assoc]

theorem concat_eq_join (ls : List (List α)) : Concat ls = ls.flatten := by
  unfold Concat
  split
  · next h =>
    rw [List.length_eq_zero.mp h]
    rfl
  · simp [foldl_append_join]

/-- Claim C3: for every slice `s` and integer `n` with `0 ≤ n ≤ length s`,
`Concat(Take(s, n), Drop(s, n))` equals `s`. -/
theorem take_drop_complement (s : List α) (n : Int) (h0 : 0 ≤ n)
    (h1 : n ≤ (s.length : Int)) : Concat [Take s n, Drop s n] = s := by
  rw [concat_eq_join]
  simp only [List.flatten, List.append_nil]
  unfold Take Drop
  by_cases hn0 : n ≤ 0
  · have hz : n = 0 := le_antisymm hn0 h0
    simp [hz]
  · by_cases hnl : n ≥ (s.length : Int)
    · simp [hn0, hnl]
    · simp [hn0, hnl, List.take_append_drop]

/-- Witness for C3 at a concrete input: `s = [1,2,3]`, `n = 2`. -/
theorem take_drop_complement_witness :
    Concat [Take [1, 2, 3] (2 : Int), Drop [1, 2, 3] (2 : Int)] = [1, 2, 3] :=
  take_drop_complement [1, 2, 3] 2 (by decide) (by decide)

theorem seenScan_append [DecidableEq α] : ∀ (xs ys seen : List α),
    seenScan seen (xs ++ ys) =
      ((seenScan (seenScan seen xs).1 ys).1,
        (seenScan seen xs).2 ++ (seenScan (seenScan seen xs).1 ys).2)
  | [], ys, seen => by simp [seenScan]
  | x :: xs, ys, seen => by
    by_cases h : x ∈ seen
    · simp only [List.cons_append, seenScan, if_pos h]
      exact seenScan_append xs ys seen
    · simp only [List.cons_append, List.append_eq, seenScan, if_neg h,
        seenScan_append xs ys (x :: seen)]

theorem uniq_eq_scan [DecidableEq α] : ∀ (l : List α), Uniq l = (seenScan [] l).2
  | [] => rfl
  | [a] => by simp [Uniq, seenScan]
  | _ :: _ :: _ => rfl

/-- Claim C4: `Union(a, b)` equals `Uniq(Concat(a, b))`: the concatenation of
`a` then `b` with duplicates removed by first occurrence. -/
theorem union_eq_uniq_concat [DecidableEq α] (a b : List α) :
    Union a b = Uniq (Concat [a, b]) := by
  rw [concat_eq_join]
  simp only [List.flatten, List.append_nil]
  unfold Union
  by_cases ha : a.length = 0
  · rw [List.length_eq_zero] at ha
    subst ha
    simp
  · by_cases hb : b.length = 0
    · rw [List.length_eq_zero] at hb
      subst hb
      simp [ha]
    · rw [if_neg ha, if_neg hb, uniq_eq_scan (a ++ b), seenScan_append]

theorem diffLoop_eq_filter [DecidableEq α] : ∀ (l set : List α),
    diffLoop set l = l.filter (fun v => decide (v ∉ set))
  | [], _ => rfl
  | v :: rest, set => by
    by_cases h : v ∈ set
    · simp [diffLoop, h, diffLoop_eq_filter rest set]
    · simp [diffLoop, h, diffLoop_eq_filter rest set]

/-- Claim C5: `Difference(a, b)` is exactly the subsequence of `a` consisting
of those elements whose value does not occur in `b`, in `a`'s original order
and with `a`'s multiplicity preserved. -/
theorem difference_spec [DecidableEq α] (a b : List α) :
    Difference a b = a.filter (fun v => decide (v ∉ b)) := by
  unfold Difference
  by_cases ha : a.length = 0
  · rw [List.length_eq_zero] at ha
    subst ha
    simp
  · by_cases hb : b.length = 0
    · rw [List.length_eq_zero] at hb
      subst hb
      simp [ha]
    · rw [if_neg ha, if_neg hb, diffLoop_eq_filter]

theorem interLoop_mem [DecidableEq α] : ∀ (l set seen : List α) (v : α),
    v ∈ interLoop set seen l ↔ v ∈ l ∧ v ∈ set ∧ v ∉ seen
  | [], set, seen, v => by simp [interLoop]
  | w :: rest, set, seen, v => by
    rw [interLoop]
    split_ifs with hws hwseen
    · simp only [interLoop_mem rest set seen v, List.mem_cons]
      have hvw : v = w → v ∈ seen := fun h => h ▸ hwseen
      tauto
    · simp only [List.mem_cons, interLoop_mem rest set (w :: seen) v]
      have hvw1 : v = w → v ∈ set := fun h => h ▸ hws
      have hvw2 : v = w → v ∉ seen := fun h => h ▸ hwseen
      tauto
    · simp only [interLoop_mem rest set seen v, List.mem_cons]
      have hvw : v = w → v ∈ set → False := fun h hv => hws (h ▸ hv)
      tauto

theorem interLoop_nodup [DecidableEq α] : ∀ (l set seen : List α),
    (interLoop set seen l).Nodup
  | [], _, _ => List.nodup_nil
  | w :: rest, set, seen => by
    rw [interLoop]
    split_ifs with hws hwseen
    · exact interLoop_nodup rest set seen
    · refine List.nodup_cons.mpr ⟨?_, interLoop_nodup rest set (w :: seen)⟩
      rw [interLoop_mem]
      rintro ⟨-, -, h⟩
      exact h (List.mem_cons_self _ _)
    · exact interLoop_nodup rest set seen

/-- Claim C6: every value emitted by `Intersection(a, b)` occurs in both `a`
and `b`, each value is emitted at most once, and every value occurring in
both `a` and `b` is emitted. -/
theorem intersection_spec [DecidableEq α] (a b : List α) :
    (Intersection a b).Nodup ∧
      ∀ v : α, v ∈ Intersection a b ↔ v ∈ a ∧ v ∈ b := by
  unfold Intersection
  split_ifs with hemp hle
  · refine ⟨List.nodup_nil, fun v => ?_⟩
    rcases hemp with h | h <;> rw [List.length_eq_zero] at h <;> subst h <;>
      simp
  · refine ⟨interLoop_nodup _ _ _, fun v => ?_⟩
    rw [interLoop_mem]
    simp only [List.not_mem_nil, not_false_iff, and_true]
    exact and_comm
  · refine ⟨interLoop_nodup _ _ _, fun v => ?_⟩
    rw [interLoop_mem]
    simp only [List.not_mem_nil, not_false_iff, and_true]

theorem fillLoop_length (l : List α) (value : α) (i e : Nat) :
    (fillLoop l value i e).length = l.length := by
  rw [fillLoop]
  split
  · rw [fillLoop_length (l.set i value) value (i + 1) e, List.length_set]
  · rfl
termination_by e - i
decreasing_by omega

theorem fillLoop_getElem? (l : List α) (value : α) (i e j : Nat) :
    (fillLoop l value i e)[j]? =
      if i ≤ j ∧ j < e ∧ j < l.length then some value else l[j]? := by
  rw [fillLoop]
  split
  · next hie =>
    rw [fillLoop_getElem? (l.set i value) value (i + 1) e j, List.length_set,
      List.getElem?_set]
    split_ifs <;>
      first
        | rfl
        | (exact (List.getElem?_eq_none (by omega)).symm)
        | (exfalso; omega)
  · next hie =>
    rw [if_neg (by omega)]
termination_by e - i
decreasing_by omega

/-- Claim C7: `Fill(s, v, start, end)` returns a copy of `s` in which exactly
the positions in `[clamp(start, 0, len s), clamp(end, 0, len s))` hold `v`
and all other positions hold their original elements; an empty or invalid
range gives an unmodified copy, and `Fill` is total (never an error). -/
theorem fill_spec (slice : List α) (value : α) (start stop : Int) :
    (Fill slice value start stop).length = slice.length ∧
      ∀ j : Nat,
        (Fill slice value start stop)[j]? =
          if min (max start 0) (slice.length : Int) ≤ (j : Int) ∧
              (j : Int) < min (max stop 0) (slice.length : Int)
            then some value else slice[j]? := by
  have hstart : (if start < 0 then 0 else start) = max start 0 := by
    split <;> omega
  have hstop :
      (if stop > (slice.length : Int) then (slice.length : Int) else stop) =
        min stop (slice.length : Int) := by
    split <;> omega
  simp only [Fill, hstart, hstop]
  constructor
  · split_ifs
    · rfl
    · exact fillLoop_length slice value _ _
  · intro j
    split
    · next h =>
      rw [if_neg (by omega)]
    · next h =>
      rw [fillLoop_getElem?]
      split_ifs <;>
        first
          | rfl
          | (exfalso; omega)

theorem eqLoop_iff [DecidableEq α] : ∀ (l1 l2 : List α),
    l1.length = l2.length → (eqLoop l1 l2 = true ↔ l1 = l2)
  | [], [], _ => by simp [eqLoop]
  | [], _ :: _, h => by simp at h
  | _ :: _, [], h => by simp at h
  | v :: r1, w :: r2, h => by
    have hlen : r1.length = r2.length := by simpa using h
    by_cases hvw : v = w
    · rw [eqLoop, if_neg (by simp [hvw]), eqLoop_iff r1 r2 hlen]
      subst hvw
      simp
    · rw [eqLoop, if_pos hvw]
      simp [hvw]

theorem glen_eq_length_gelems (a : Option (List α)) :
    glen a = (gelems a).length := by
  cases a <;> rfl

/-- Claim C8: `Equals(a, b)` is true iff `a` and `b` have the same length,
the same element contents position by position, and the same nil-ness; in
particular a nil slice and a non-nil empty slice compare unequal. -/
theorem equals_spec [DecidableEq α] :
    (∀ a b : Option (List α),
      Equals a b = true ↔
        glen a = glen b ∧ gelems a = gelems b ∧ a.isNone = b.isNone) ∧
      Equals (none : Option (List α)) (some []) = false := by
  constructor
  · intro a b
    unfold Equals
    split_ifs with hlen hnil
    · simp only [Bool.false_eq_true, false_iff]
      rintro ⟨h1, -, -⟩
      exact hlen h1
    · simp only [Bool.false_eq_true, false_iff]
      rintro ⟨-, -, h3⟩
      exact hnil h3
    · rw [not_ne_iff] at hlen hnil
      rw [eqLoop_iff _ _ (by rw [← glen_eq_length_gelems, ← glen_eq_length_gelems, hlen])]
      constructor
      · intro h
        exact ⟨hlen, h, hnil⟩
      · rintro ⟨-, h, -⟩
        exact h
  · rfl

theorem chunkAux_flatten : ∀ (l : List α) (sp : Nat), (chunkAux l sp).flatten = l
  | [], _ => by simp [chunkAux]
  | v :: rest, sp => by
    rw [chunkAux, List.flatten_cons,
      chunkAux_flatten ((v :: rest).drop (sp + 1)) sp, List.take_append_drop]
termination_by l _ => l.length
decreasing_by
  simp only [List.drop_succ_cons, List.length_drop, List.length_cons]
  omega

theorem chunkAux_ne_nil (v : α) (rest : List α) (sp : Nat) :
    chunkAux (v :: rest) sp ≠ [] := by
  rw [chunkAux]
  exact List.cons_ne_nil _ _

theorem chunkAux_dropLast_length : ∀ (l : List α) (sp : Nat),
    ∀ c ∈ (chunkAux l sp).dropLast, c.length = sp + 1
  | [], _ => by
    intro c hc
    simp [chunkAux] at hc
  | v :: rest, sp => by
    intro c hc
    rw [chunkAux] at hc
    rcases hdrop : (v :: rest).drop (sp + 1) with _ | ⟨w, rest2⟩
    · rw [hdrop] at hc
      simp [chunkAux] at hc
    · rw [hdrop] at hc
      rw [List.dropLast_cons_of_ne_nil (chunkAux_ne_nil w rest2 sp)] at hc
      rcases List.mem_cons.mp hc with h | h
      · subst h
        have hd := congrArg List.length hdrop
        simp only [List.length_drop, List.length_cons] at hd
        rw [List.length_take]
        simp only [List.length_cons]
        omega
      · exact chunkAux_dropLast_length (w :: rest2) sp c h
termination_by l _ => l.length
decreasing_by
  have hd := congrArg List.length hdrop
  simp only [List.length_drop, List.length_cons] at hd
  simp only [List.length_cons]
  omega

theorem chunkAux_mem_length : ∀ (l : List α) (sp : Nat),
    ∀ c ∈ chunkAux l sp, 1 ≤ c.length ∧ c.length ≤ sp + 1
  | [], _ => by
    intro c hc
    simp [chunkAux] at hc
  | v :: rest, sp => by
    intro c hc
    rw [chunkAux] at hc
    rcases List.mem_cons.mp hc with h | h
    · subst h
      rw [List.length_take]
      constructor <;> simp only [List.length_cons] <;> omega
    · exact chunkAux_mem_length ((v :: rest).drop (sp + 1)) sp c h
termination_by l _ => l.length
decreasing_by
  simp only [List.drop_succ_cons, List.length_drop, List.length_cons]
  omega

/-- Claim C9: `Chunk(s, size)` is empty when `size ≤ 0` or `s` is empty;
otherwise it splits `s` into consecutive groups whose concatenation is `s`,
every group except possibly the last has length exactly `size`, and every
group (in particular the last) has length between 1 and `size`. -/
theorem chunk_spec (s : List α) (size : Int) :
    (size ≤ 0 ∨ s = [] → Chunk s size = []) ∧
      (0 < size → s ≠ [] →
        (Chunk s size).flatten = s ∧
          (∀ c ∈ (Chunk s size).dropLast, c.length = size.toNat) ∧
            ∀ c ∈ Chunk s size, 1 ≤ c.length ∧ c.length ≤ size.toNat) := by
  constructor
  · intro h
    unfold Chunk
    rw [if_pos]
    rcases h with h | h
    · exact Or.inl h
    · exact Or.inr (by simp [h])
  · intro hsz hne
    have hcond : ¬(size ≤ 0 ∨ s.length = 0) := by
      push_neg
      exact ⟨by omega, by simpa [List.length_eq_zero] using hne⟩
    unfold Chunk
    rw [if_neg hcond]
    have hsp : size.toNat - 1 + 1 = size.toNat := by omega
    refine ⟨chunkAux_flatten s _, ?_, ?_⟩
    · intro c hc
      rw [chunkAux_dropLast_length s _ c hc, hsp]
    · intro c hc
      have hb := chunkAux_mem_length s _ c hc
      omega

theorem scanIdx_take (p : α → Bool) : ∀ l : List α,
    l.take (scanIdx p l) = l.takeWhile p
  | [] => rfl
  | v :: rest => by
    cases hp : p v <;>
      simp [scanIdx, List.takeWhile_cons, hp, scanIdx_take p rest]

theorem scanIdx_drop (p : α → Bool) : ∀ l : List α,
    l.drop (scanIdx p l) = l.dropWhile p
  | [] => rfl
  | v :: rest => by
    cases hp : p v <;>
      simp [scanIdx, List.dropWhile_cons, hp, scanIdx_drop p rest]

theorem head?_dropWhile_false (p : α → Bool) (l : List α) (x : α)
    (h : (l.dropWhile p).head? = some x) : p x = false := by
  have hw := List.head?_dropWhile_not p l
  rw [h] at hw
  exact hw

/-- Claim C10: `Concat(TakeWhile(s, p), DropWhile(s, p))` equals `s`;
`TakeWhile` returns the longest prefix whose elements all satisfy `p` (it
equals `List.takeWhile`, and all its elements satisfy `p`), and `DropWhile`
returns exactly the remaining suffix, whose first element, if any, fails
`p`. -/
theorem takewhile_dropwhile_complement (s : List α) (p : α → Bool) :
    Concat [TakeWhile s p, DropWhile s p] = s ∧
      TakeWhile s p = s.takeWhile p ∧
        DropWhile s p = s.dropWhile p ∧
          (∀ x ∈ TakeWhile s p, p x = true) ∧
            ∀ x : α, (DropWhile s p).head? = some x → p x = false := by
  have ht : TakeWhile s p = s.takeWhile p := by
    unfold TakeWhile
    split
    · next h =>
      rw [List.length_eq_zero.mp h]
      rfl
    · exact scanIdx_take p s
  have hd : DropWhile s p = s.dropWhile p := by
    unfold DropWhile
    split
    · next h =>
      rw [List.length_eq_zero.mp h]
      rfl
    · exact scanIdx_drop p s
  refine ⟨?_, ht, hd, ?_, ?_⟩
  · rw [concat_eq_join]
    simp [ht, hd]
  · rw [ht]
    intro x hx
    exact List.mem_takeWhile_imp hx
  · rw [hd]
    intro x hx
    exact head?_dropWhile_false p s x hx

theorem chunkSlicesAux_mem : ∀ (rem arrId off sp : Nat) (c : GoSlice),
    c ∈ chunkSlicesAux arrId off sp rem →
      c.arrId = arrId ∧ off ≤ c.off ∧ c.off + c.len ≤ off + rem
  | 0, arrId, off, sp, c => by
    intro hc
    simp [chunkSlicesAux] at hc
  | rem + 1, arrId, off, sp, c => by
    intro hc
    rw [chunkSlicesAux] at hc
    rcases List.mem_cons.mp hc with h | h
    · subst h
      refine ⟨rfl, Nat.le_refl _, ?_⟩
      show off + min (sp + 1) (rem + 1) ≤ off + (rem + 1)
      omega
    · by_cases hsp : sp ≤ rem
      · obtain ⟨h1, h2, h3⟩ :=
          chunkSlicesAux_mem (rem + 1 - (sp + 1)) arrId (off + (sp + 1)) sp c h
        exact ⟨h1, by omega, by omega⟩
      · have hz : rem + 1 - (sp + 1) = 0 := by omega
        rw [hz] at h
        simp [chunkSlicesAux] at h
termination_by rem _ _ _ _ => rem
decreasing_by omega

/-- Counterexample to claim C1 as stated: for `s` the two-element slice
`⟨array 0, offset 0, length 2⟩` over the store holding `[10, 20]` in array 0,
`Chunk(s, 1)` returns the subslice headers `[⟨0, 0, 1⟩, ⟨0, 1, 1⟩]`, which
share `s`'s backing array, and writing element 0 of the first returned chunk
changes what `s` reads: the inner chunks are not storage independent of
`s`. -/
theorem chunk_storage_counterexample :
    chunkSlices ⟨0, 0, 2⟩ 1 = [⟨0, 0, 1⟩, ⟨0, 1, 1⟩] ∧
      readSlice
          (writeSlice (fun a => if a = 0 then [10, 20] else ([] : List Nat))
            ⟨0, 0, 1⟩ 0 99)
          ⟨0, 0, 2⟩ ≠
        readSlice (fun a => if a = 0 then [10, 20] else ([] : List Nat))
          ⟨0, 0, 2⟩ := by
  constructor
  · norm_num [chunkSlices, chunkSlicesAux]
  · decide

/-- Claim C1, amended: non-mutating operations never write through the input
(every operation embedded here is a pure function of its input), but the
inner slices returned by `Chunk` are NOT storage independent of `s`: each
returned chunk header keeps `s`'s backing array, its window lies inside
`s`'s window, and writing element `j` of a returned chunk is the same store
update as writing `s` at the corresponding position. -/
theorem chunk_chunks_alias_input (σ : Store α) (s : GoSlice) (size : Int)
    (c : GoSlice) (hc : c ∈ chunkSlices s size) (j : Nat) (hj : j < c.len)
    (v : α) :
    c.arrId = s.arrId ∧ s.off ≤ c.off ∧ c.off + c.len ≤ s.off + s.len ∧
      writeSlice σ c j v = writeSlice σ s (c.off - s.off + j) v := by
  unfold chunkSlices at hc
  split_ifs at hc with h
  · simp at hc
  · obtain ⟨h1, h2, h3⟩ :=
      chunkSlicesAux_mem s.len s.arrId s.off (size.toNat - 1) c hc
    refine ⟨h1, h2, h3, ?_⟩
    funext a
    unfold writeSlice
    rw [h1]
    by_cases ha : a = s.arrId
    · rw [if_pos ha, if_pos ha]
      congr 1
      omega
    · rw [if_neg ha, if_neg ha]

/-- Witness for the amended C1 theorem at a concrete input: the store holding
`[10, 20]` in array 0, `s = ⟨0, 0, 2⟩`, `size = 1`, the second returned
chunk `⟨0, 1, 1⟩`, element 0, value 99. -/
theorem chunk_chunks_alias_input_witness :
    (GoSlice.mk 0 1 1).arrId = (GoSlice.mk 0 0 2).arrId ∧
      (GoSlice.mk 0 0 2).off ≤ (GoSlice.mk 0 1 1).off ∧
        (GoSlice.mk 0 1 1).off + (GoSlice.mk 0 1 1).len ≤
            (GoSlice.mk 0 0 2).off + (GoSlice.mk 0 0 2).len ∧
          writeSlice (fun a => if a = 0 then [10, 20] else ([] : List Nat))
              ⟨0, 1, 1⟩ 0 99 =
            writeSlice (fun a => if a = 0 then [10, 20] else ([] : List Nat))
              ⟨0, 0, 2⟩ ((GoSlice.mk 0 1 1).off - (GoSlice.mk 0 0 2).off + 0)
              99 :=
  chunk_chunks_alias_input
    (fun a => if a = 0 then [10, 20] else ([] : List Nat)) ⟨0, 0, 2⟩ 1
    ⟨0, 1, 1⟩ (by norm_num [chunkSlices, chunkSlicesAux]) 0 (by norm_num) 99

end SliceUtils
